import Mathlib

/-!
Verification of the `gojsonflatten` JSON-flattening library.

The definitions below are a shallow embedding of the Go source file
`flatten.go`.  Nested JSON values are modelled by the mutual inductive
family `Value` / `Entries` / `Items` (Go's `interface{}` values,
`map[string]interface{}` and `[]interface{}`); the output flat map of
`flatten` is modelled as an association list written in insertion
order, with `setKey` giving Go's map-assignment semantics.  Machine
integers (`depth`) are modelled as `Int`; Go's `(value, error)` pairs
are modelled as `× Option GoErr` or `Except GoErr`.  The JSON codec
(`encoding/json`) is outside the repository, so the string front end
takes the decoder and encoder as explicit function parameters.
-/

namespace GoJsonFlatten

mutual

/-- A parsed JSON value: scalar (null, bool, number, string), mapping, or sequence. -/
inductive Value where
  | vnull : Value
  | vbool : Bool → Value
  | vnum : Int → Value
  | vstr : String → Value
  | vmap : Entries → Value
  | varr : Items → Value

/-- The entries of a JSON mapping, Go's `map[string]interface{}` as a key-value list. -/
inductive Entries where
  | enil : Entries
  | econs : String → Value → Entries → Entries

/-- The items of a JSON sequence, Go's `[]interface{}`. -/
inductive Items where
  | inil : Items
  | icons : Value → Items → Items

end

deriving instance DecidableEq for Value, Entries, Items

/-- A separator style: literal text put before, between and after key segments. -/
structure SeparatorStyle where
  Before : String
  Middle : String
  After : String
deriving DecidableEq

/-- Dot style: `Middle = "."`. -/
def DotStyle : SeparatorStyle := { Before := "", Middle := ".", After := "" }

/-- Path style: `Middle = "/"`. -/
def PathStyle : SeparatorStyle := { Before := "", Middle := "/", After := "" }

/-- Rails style: `Before = "["`, `After = "]"`. -/
def RailsStyle : SeparatorStyle := { Before := "[", Middle := "", After := "]" }

/-- Underscore style: `Middle = "_"`. -/
def UnderscoreStyle : SeparatorStyle := { Before := "", Middle := "_", After := "" }

/-- The error values of the package: `ErrNotValidInput`, `ErrNotValidJsonInput`,
and errors propagated from the JSON codec. -/
inductive GoErr where
  | errNotValidInput : GoErr
  | errNotValidJsonInput : GoErr
  | jsonErr : String → GoErr
deriving DecidableEq

/-- The output flat map, an association list in insertion order. -/
abbrev FlatMap := List (String × Value)

/-- Go map assignment `m[k] = v`: overwrite the entry for `k` if present,
otherwise append a new entry. -/
def setKey (m : FlatMap) (k : String) (v : Value) : FlatMap :=
  match m with
  | [] => [(k, v)]
  | (k0, v0) :: rest => if k0 = k then (k, v) :: rest else (k0, v0) :: setKey rest k v

/-- Embeds Go `enkey`: combine the existing key text and a sub-key under a style.
At the top level the sub-key is appended bare; at nested levels it is decorated. -/
def enkey (top : Bool) (pfx subKey : String) (style : SeparatorStyle) : String :=
  if top then
    pfx ++ subKey
  else
    pfx ++ style.Before ++ style.Middle ++ subKey ++ style.After

mutual

/-- Embeds Go `flatten`: recursively flatten `nested` into `flatMap`.
The returned map is the final state of the mutated Go map; the `Option GoErr`
is the returned error.  Note the loops below drop the error of the `assign`
closure, exactly as the Go `for` bodies do. -/
def flatten (top : Bool) (flatMap : FlatMap) (nested : Value) (pfx : String)
    (style : SeparatorStyle) (depth : Int) (keepArrays : Bool) :
    FlatMap × Option GoErr :=
  if depth = 0 then
    (setKey flatMap pfx nested, none)
  else
    match nested with
    | Value.vmap entries => (flattenMapLoop flatMap entries top pfx style depth keepArrays, none)
    | Value.varr items =>
      if keepArrays then
        (setKey flatMap pfx (Value.varr items), none)
      else
        (flattenArrLoop flatMap items 0 top pfx style depth keepArrays, none)
    | _ => (flatMap, some GoErr.errNotValidInput)
termination_by (sizeOf nested, 0)

/-- Embeds the `assign` closure inside Go `flatten`: recurse on mappings and
sequences, store scalars directly. -/
def assign (flatMap : FlatMap) (newKey : String) (v : Value)
    (style : SeparatorStyle) (depth : Int) (keepArrays : Bool) :
    FlatMap × Option GoErr :=
  match v with
  | Value.vmap e => flatten false flatMap (Value.vmap e) newKey style (depth - 1) keepArrays
  | Value.varr a => flatten false flatMap (Value.varr a) newKey style (depth - 1) keepArrays
  | sv => (setKey flatMap newKey sv, none)
termination_by (sizeOf v, 1)

/-- The `range` loop of Go `flatten` over a mapping's entries.  The error
result of `assign` is discarded, as in the Go loop body. -/
def flattenMapLoop (flatMap : FlatMap) (entries : Entries) (top : Bool) (pfx : String)
    (style : SeparatorStyle) (depth : Int) (keepArrays : Bool) : FlatMap :=
  match entries with
  | Entries.enil => flatMap
  | Entries.econs k v rest =>
    flattenMapLoop (assign flatMap (enkey top pfx k style) v style depth keepArrays).1
      rest top pfx style depth keepArrays
termination_by (sizeOf entries, 2)

/-- The `range` loop of Go `flatten` over a sequence's items, with 0-based
decimal indices as sub-keys.  The error result of `assign` is discarded. -/
def flattenArrLoop (flatMap : FlatMap) (items : Items) (i : Nat) (top : Bool) (pfx : String)
    (style : SeparatorStyle) (depth : Int) (keepArrays : Bool) : FlatMap :=
  match items with
  | Items.inil => flatMap
  | Items.icons v rest =>
    flattenArrLoop (assign flatMap (enkey top pfx (Nat.repr i) style) v style depth keepArrays).1
      rest (i + 1) top pfx style depth keepArrays
termination_by (sizeOf items, 2)

end

/-- View a mapping's entries as an association list; in Go the input map and the
output flat map share the type `map[string]interface{}`, so this is the identity. -/
def Entries.toList : Entries → List (String × Value)
  | Entries.enil => []
  | Entries.econs k v rest => (k, v) :: rest.toList

/-- Embeds Go `flattenInternal`: return the input mapping unchanged at depth 0,
increment a positive depth, then run `flatten` on a fresh output map. -/
def flattenInternal (nested : Entries) (pfx : String) (style : SeparatorStyle)
    (depth : Int) (preserveArray : Bool) : Except GoErr FlatMap :=
  if depth = 0 then
    Except.ok nested.toList
  else
    match flatten true [] (Value.vmap nested) pfx style
        (if depth > 0 then depth + 1 else depth) preserveArray with
    | (_, some e) => Except.error e
    | (fm, none) => Except.ok fm

/-- Embeds Go `Flatten`: flatten a nested map, decomposing arrays. -/
def Flatten (nested : Entries) (pfx : String) (style : SeparatorStyle)
    (depth : Int) : Except GoErr FlatMap :=
  flattenInternal nested pfx style depth false

/-- Embeds Go `FlattenNoArray`: flatten a nested map, preserving arrays. -/
def FlattenNoArray (nested : Entries) (pfx : String) (style : SeparatorStyle)
    (depth : Int) : Except GoErr FlatMap :=
  flattenInternal nested pfx style depth true

/-- The Go regexp whitespace class `\s`, i.e. `[\t\n\f\r ]`. -/
def isSpaceChar (c : Char) : Bool :=
  c == ' ' || c == '\t' || c == '\n' || c == '\x0c' || c == '\r'

/-- Embeds the Go regexp `isJsonMap = ^\s*\{`: after leading whitespace the
text must begin with an opening brace. -/
def isJsonMap (s : String) : Bool :=
  match s.toList.dropWhile isSpaceChar with
  | [] => false
  | c :: _ => c == '{'

/-- Embeds Go `flattenStringInternal`.  The JSON codec is external to the
repository, so the decoder and encoder are explicit parameters; their errors
propagate unchanged, as Go propagates `json.Unmarshal` / `json.Marshal` errors. -/
def flattenStringInternal (decode : String → Except GoErr Entries)
    (encode : FlatMap → Except GoErr String) (nestedString pfx : String)
    (style : SeparatorStyle) (depth : Int) (preserveArray : Bool) :
    String × Option GoErr :=
  if !isJsonMap nestedString then
    ("", some GoErr.errNotValidJsonInput)
  else
    match decode nestedString with
    | Except.error e => ("", some e)
    | Except.ok nested =>
      match flattenInternal nested pfx style depth preserveArray with
      | Except.error e => ("", some e)
      | Except.ok flatmap =>
        match encode flatmap with
        | Except.error e => ("", some e)
        | Except.ok out => (out, none)

/-- Embeds Go `FlattenString` (decoder and encoder passed explicitly). -/
def FlattenString (decode : String → Except GoErr Entries)
    (encode : FlatMap → Except GoErr String) (nestedString pfx : String)
    (style : SeparatorStyle) (depth : Int) : String × Option GoErr :=
  flattenStringInternal decode encode nestedString pfx style depth false

/-- Embeds Go `FlattenStringNoArray` (decoder and encoder passed explicitly). -/
def FlattenStringNoArray (decode : String → Except GoErr Entries)
    (encode : FlatMap → Except GoErr String) (nestedString pfx : String)
    (style : SeparatorStyle) (depth : Int) : String × Option GoErr :=
  flattenStringInternal decode encode nestedString pfx style depth true

/-- A value is structural when it is a mapping or a sequence (the types the
`assign` closure recurses into); otherwise it is a scalar. -/
def isStructural : Value → Bool
  | Value.vmap _ => true
  | Value.varr _ => true
  | _ => false

/-- The keys of a flat map. -/
def keys (m : FlatMap) : List String :=
  m.map Prod.fst

/-- `hasPfx p k` holds when the key text `k` begins with the text `p`. -/
def hasPfx (p k : String) : Prop :=
  ∃ t, k = p ++ t

/-- Composition of the non-top path segments via `enkey`. -/
def composePathAux (pfx : String) (path : List String) (style : SeparatorStyle) : String :=
  match path with
  | [] => pfx
  | k :: rest => composePathAux (enkey false pfx k style) rest style

/-- Iterated key composition along a path of sub-keys: the first segment is
composed at the top level, the remaining segments at nested levels, exactly as
the recursive flattener invokes `enkey` along one descending branch. -/
def composePath (pfx : String) (path : List String) (style : SeparatorStyle) : String :=
  match path with
  | [] => pfx
  | k :: rest => composePathAux (enkey true pfx k style) rest style

/-- The `flatten` call made by `flattenInternal` after depth adjustment: run on
a fresh output map, discard the map on error. -/
def runFlatten (nested : Entries) (pfx : String) (style : SeparatorStyle)
    (depth : Int) (preserveArray : Bool) : Except GoErr FlatMap :=
  match flatten true [] (Value.vmap nested) pfx style depth preserveArray with
  | (_, some e) => Except.error e
  | (fm, none) => Except.ok fm

/-- Every entry of `setKey m k v` is the new entry or an entry of `m`. -/
theorem mem_setKey {m : FlatMap} {k : String} {v : Value} {x : String × Value}
    (hx : x ∈ setKey m k v) : x = (k, v) ∨ x ∈ m := by
  induction m with
  | nil => simpa [setKey] using hx
  | cons hd tl ih =>
    obtain ⟨k0, v0⟩ := hd
    simp only [setKey] at hx
    split at hx
    · rcases List.mem_cons.mp hx with h | h
      · exact Or.inl h
      · exact Or.inr (List.mem_cons_of_mem _ h)
    · rcases List.mem_cons.mp hx with h | h
      · exact Or.inr (h ▸ List.mem_cons_self _ _)
      · rcases ih h with h1 | h1
        · exact Or.inl h1
        · exact Or.inr (List.mem_cons_of_mem _ h1)

/-- Every key of `setKey m k v` is `k` or a key of `m`. -/
theorem keys_setKey {m : FlatMap} {k : String} {v : Value} {k0 : String}
    (h : k0 ∈ keys (setKey m k v)) : k0 = k ∨ k0 ∈ keys m := by
  unfold keys at h ⊢
  obtain ⟨x, hx, hfst⟩ := List.mem_map.mp h
  rcases mem_setKey hx with h1 | h1
  · left
    rw [← hfst, h1]
  · right
    exact hfst ▸ List.mem_map_of_mem _ h1

theorem hasPfx_refl (p : String) : hasPfx p p :=
  ⟨"", (String.append_empty p).symm⟩

theorem hasPfx_trans {p q r : String} (h1 : hasPfx p q) (h2 : hasPfx q r) : hasPfx p r := by
  obtain ⟨t1, rfl⟩ := h1
  obtain ⟨t2, rfl⟩ := h2
  exact ⟨t1 ++ t2, String.append_assoc p t1 t2⟩

/-- `enkey` always extends the existing key text. -/
theorem hasPfx_enkey (top : Bool) (p k : String) (style : SeparatorStyle) :
    hasPfx p (enkey top p k style) := by
  unfold enkey
  split
  · exact ⟨k, rfl⟩
  · exact ⟨style.Before ++ style.Middle ++ k ++ style.After, by
      simp [String.append_assoc]⟩

mutual

/-- Every key in the map produced by `flatten` is a key already present or
begins with the current key text. -/
theorem keys_flatten (top : Bool) (fm : FlatMap) (v : Value) (p : String)
    (style : SeparatorStyle) (d : Int) (keep : Bool) (k : String)
    (hk : k ∈ keys (flatten top fm v p style d keep).1) : k ∈ keys fm ∨ hasPfx p k := by
  rw [flatten.eq_def] at hk
  split at hk
  · rcases keys_setKey hk with h | h
    · exact Or.inr (h ▸ hasPfx_refl p)
    · exact Or.inl h
  · cases v with
    | vmap e =>
      dsimp only at hk
      exact keys_mapLoop fm e top p style d keep k hk
    | varr a =>
      dsimp only at hk
      split at hk
      · rcases keys_setKey hk with h | h
        · exact Or.inr (h ▸ hasPfx_refl p)
        · exact Or.inl h
      · exact keys_arrLoop fm a 0 top p style d keep k hk
    | vnull => exact Or.inl hk
    | vbool b => exact Or.inl hk
    | vnum n => exact Or.inl hk
    | vstr s => exact Or.inl hk
termination_by (sizeOf v, 0)
decreasing_by
  all_goals subst_vars
  all_goals decreasing_tactic

/-- Every key in the map produced by `assign` is a key already present or
begins with the assigned key text. -/
theorem keys_assign (fm : FlatMap) (nk : String) (v : Value) (style : SeparatorStyle)
    (d : Int) (keep : Bool) (k : String)
    (hk : k ∈ keys (assign fm nk v style d keep).1) : k ∈ keys fm ∨ hasPfx nk k := by
  cases v with
  | vmap e =>
    rw [assign] at hk
    exact keys_flatten false fm (Value.vmap e) nk style (d - 1) keep k hk
  | varr a =>
    rw [assign] at hk
    exact keys_flatten false fm (Value.varr a) nk style (d - 1) keep k hk
  | vnull =>
    simp only [assign] at hk
    rcases keys_setKey hk with h | h
    · exact Or.inr (h ▸ hasPfx_refl nk)
    · exact Or.inl h
  | vbool b =>
    simp only [assign] at hk
    rcases keys_setKey hk with h | h
    · exact Or.inr (h ▸ hasPfx_refl nk)
    · exact Or.inl h
  | vnum n =>
    simp only [assign] at hk
    rcases keys_setKey hk with h | h
    · exact Or.inr (h ▸ hasPfx_refl nk)
    · exact Or.inl h
  | vstr s =>
    simp only [assign] at hk
    rcases keys_setKey hk with h | h
    · exact Or.inr (h ▸ hasPfx_refl nk)
    · exact Or.inl h
termination_by (sizeOf v, 1)
decreasing_by
  all_goals subst_vars
  all_goals decreasing_tactic

/-- Every key in the map produced by the mapping loop is a key already present
or begins with the current key text. -/
theorem keys_mapLoop (fm : FlatMap) (entries : Entries) (top : Bool) (p : String)
    (style : SeparatorStyle) (d : Int) (keep : Bool) (k : String)
    (hk : k ∈ keys (flattenMapLoop fm entries top p style d keep)) :
    k ∈ keys fm ∨ hasPfx p k := by
  cases entries with
  | enil =>
    rw [flattenMapLoop] at hk
    exact Or.inl hk
  | econs kk v rest =>
    rw [flattenMapLoop] at hk
    rcases keys_mapLoop (assign fm (enkey top p kk style) v style d keep).1
        rest top p style d keep k hk with h | h
    · rcases keys_assign fm (enkey top p kk style) v style d keep k h with h1 | h1
      · exact Or.inl h1
      · exact Or.inr (hasPfx_trans (hasPfx_enkey top p kk style) h1)
    · exact Or.inr h
termination_by (sizeOf entries, 2)
decreasing_by
  all_goals subst_vars
  all_goals decreasing_tactic

/-- Every key in the map produced by the sequence loop is a key already present
or begins with the current key text. -/
theorem keys_arrLoop (fm : FlatMap) (items : Items) (i : Nat) (top : Bool) (p : String)
    (style : SeparatorStyle) (d : Int) (keep : Bool) (k : String)
    (hk : k ∈ keys (flattenArrLoop fm items i top p style d keep)) :
    k ∈ keys fm ∨ hasPfx p k := by
  cases items with
  | inil =>
    rw [flattenArrLoop] at hk
    exact Or.inl hk
  | icons v rest =>
    rw [flattenArrLoop] at hk
    rcases keys_arrLoop (assign fm (enkey top p (Nat.repr i) style) v style d keep).1
        rest (i + 1) top p style d keep k hk with h | h
    · rcases keys_assign fm (enkey top p (Nat.repr i) style) v style d keep k h with h1 | h1
      · exact Or.inl h1
      · exact Or.inr (hasPfx_trans (hasPfx_enkey top p (Nat.repr i) style) h1)
    · exact Or.inr h
termination_by (sizeOf items, 2)
decreasing_by
  all_goals subst_vars
  all_goals decreasing_tactic

end

mutual

/-- With unlimited depth and arrays decomposed, `flatten` only adds entries
with scalar values. -/
theorem vals_flatten (top : Bool) (fm : FlatMap) (v : Value) (p : String)
    (style : SeparatorStyle) (d : Int) (hd : d < 0) (x : String × Value)
    (hx : x ∈ (flatten top fm v p style d false).1) :
    x ∈ fm ∨ isStructural x.2 = false := by
  rw [flatten.eq_def] at hx
  rw [if_neg (by omega : ¬ d = 0)] at hx
  cases v with
  | vmap e =>
    dsimp only at hx
    exact vals_mapLoop fm e top p style d hd x hx
  | varr a =>
    dsimp only at hx
    rw [if_neg (by simp)] at hx
    exact vals_arrLoop fm a 0 top p style d hd x hx
  | vnull => exact Or.inl hx
  | vbool b => exact Or.inl hx
  | vnum n => exact Or.inl hx
  | vstr s => exact Or.inl hx
termination_by (sizeOf v, 0)
decreasing_by
  all_goals subst_vars
  all_goals decreasing_tactic

/-- With unlimited depth and arrays decomposed, `assign` only adds entries
with scalar values. -/
theorem vals_assign (fm : FlatMap) (nk : String) (v : Value) (style : SeparatorStyle)
    (d : Int) (hd : d < 0) (x : String × Value)
    (hx : x ∈ (assign fm nk v style d false).1) :
    x ∈ fm ∨ isStructural x.2 = false := by
  cases v with
  | vmap e =>
    rw [assign] at hx
    exact vals_flatten false fm (Value.vmap e) nk style (d - 1) (by omega) x hx
  | varr a =>
    rw [assign] at hx
    exact vals_flatten false fm (Value.varr a) nk style (d - 1) (by omega) x hx
  | vnull =>
    simp only [assign] at hx
    rcases mem_setKey hx with h | h
    · right
      rw [h]
      rfl
    · exact Or.inl h
  | vbool b =>
    simp only [assign] at hx
    rcases mem_setKey hx with h | h
    · right
      rw [h]
      rfl
    · exact Or.inl h
  | vnum n =>
    simp only [assign] at hx
    rcases mem_setKey hx with h | h
    · right
      rw [h]
      rfl
    · exact Or.inl h
  | vstr s =>
    simp only [assign] at hx
    rcases mem_setKey hx with h | h
    · right
      rw [h]
      rfl
    · exact Or.inl h
termination_by (sizeOf v, 1)
decreasing_by
  all_goals subst_vars
  all_goals decreasing_tactic

/-- With unlimited depth and arrays decomposed, the mapping loop only adds
entries with scalar values. -/
theorem vals_mapLoop (fm : FlatMap) (entries : Entries) (top : Bool) (p : String)
    (style : SeparatorStyle) (d : Int) (hd : d < 0) (x : String × Value)
    (hx : x ∈ flattenMapLoop fm entries top p style d false) :
    x ∈ fm ∨ isStructural x.2 = false := by
  cases entries with
  | enil =>
    rw [flattenMapLoop] at hx
    exact Or.inl hx
  | econs kk v rest =>
    rw [flattenMapLoop] at hx
    rcases vals_mapLoop (assign fm (enkey top p kk style) v style d false).1
        rest top p style d hd x hx with h | h
    · exact vals_assign fm (enkey top p kk style) v style d hd x h
    · exact Or.inr h
termination_by (sizeOf entries, 2)
decreasing_by
  all_goals subst_vars
  all_goals decreasing_tactic

/-- With unlimited depth and arrays decomposed, the sequence loop only adds
entries with scalar values. -/
theorem vals_arrLoop (fm : FlatMap) (items : Items) (i : Nat) (top : Bool) (p : String)
    (style : SeparatorStyle) (d : Int) (hd : d < 0) (x : String × Value)
    (hx : x ∈ flattenArrLoop fm items i top p style d false) :
    x ∈ fm ∨ isStructural x.2 = false := by
  cases items with
  | inil =>
    rw [flattenArrLoop] at hx
    exact Or.inl hx
  | icons v rest =>
    rw [flattenArrLoop] at hx
    rcases vals_arrLoop (assign fm (enkey top p (Nat.repr i) style) v style d false).1
        rest (i + 1) top p style d hd x hx with h | h
    · exact vals_assign fm (enkey top p (Nat.repr i) style) v style d hd x h
    · exact Or.inr h
termination_by (sizeOf items, 2)
decreasing_by
  all_goals subst_vars
  all_goals decreasing_tactic

end

/-- `flatten` on a mapping never reports an error. -/
theorem flatten_vmap_noErr (top : Bool) (fm : FlatMap) (e : Entries) (p : String)
    (style : SeparatorStyle) (d : Int) (keep : Bool) :
    (flatten top fm (Value.vmap e) p style d keep).2 = none := by
  rw [flatten.eq_def]
  split
  · rfl
  · rfl

/-- `flattenInternal` always succeeds: its input is typed as a mapping, so the
scalar branch of `flatten` is unreachable at the top, and the loops discard
the errors of the recursive calls. -/
theorem flattenInternal_isOk (nested : Entries) (p : String) (style : SeparatorStyle)
    (d : Int) (b : Bool) : ∃ m, flattenInternal nested p style d b = Except.ok m := by
  unfold flattenInternal
  split
  · exact ⟨nested.toList, rfl⟩
  · rcases hp : flatten true [] (Value.vmap nested) p style
        (if d > 0 then d + 1 else d) b with ⟨fm, err⟩
    have h := flatten_vmap_noErr true [] nested p style (if d > 0 then d + 1 else d) b
    rw [hp] at h
    cases err with
    | none => exact ⟨fm, rfl⟩
    | some e => simp at h

/-- The one-entry mapping `{"a": "b"}`. -/
def exAB : Entries :=
  Entries.econs "a" (Value.vstr "b") Entries.enil

/-- The mapping `{"z": ["one", "two"]}`. -/
def exArr : Entries :=
  Entries.econs "z" (Value.varr (Items.icons (Value.vstr "one")
    (Items.icons (Value.vstr "two") Items.inil))) Entries.enil

/-- The mapping `{"a": {"b": {"c": {"d": "e"}}}}`. -/
def exABCD : Entries :=
  Entries.econs "a" (Value.vmap (Entries.econs "b" (Value.vmap (Entries.econs "c"
    (Value.vmap (Entries.econs "d" (Value.vstr "e") Entries.enil)) Entries.enil))
    Entries.enil)) Entries.enil

/-- C1 (counterexample): at depth 0 the public entry point returns the input
mapping itself, not a one-entry mapping that stores the input under the
caller-supplied key text, so the claimed shape is wrong for `{"a": "b"}`
with key text `"p"`. -/
theorem c1_depth_zero_counterexample :
    Flatten exAB "p" DotStyle 0 = Except.ok [("a", Value.vstr "b")] ∧
    [("a", Value.vstr "b")] ≠ [("p", Value.vmap exAB)] := by
  constructor
  · rfl
  · decide

/-- C1 (amended): for every mapping, key text and separator style, calling
`Flatten` or `FlattenNoArray` with depth 0 returns the input mapping itself,
unchanged and with no decomposition; the caller-supplied key text is ignored. -/
theorem c1_depth_zero_returns_input (x : Entries) (p : String) (style : SeparatorStyle) :
    Flatten x p style 0 = Except.ok x.toList ∧
    FlattenNoArray x p style 0 = Except.ok x.toList := by
  constructor
  · rfl
  · rfl

/-- C2 (counterexample): at depth 0 the produced keys do not start with the
caller-supplied key text: `Flatten {"a": "b"}` with text `"flag-"` and depth 0
yields the key `"a"`, which does not begin with `"flag-"`. -/
theorem c2_depth_zero_key_counterexample :
    Flatten exAB "flag-" DotStyle 0 = Except.ok [("a", Value.vstr "b")] ∧
    ¬ hasPfx "flag-" "a" := by
  constructor
  · rfl
  · rintro ⟨t, ht⟩
    have hl := congrArg String.length ht
    rw [String.length_append] at hl
    have h1 : "a".length = 1 := rfl
    have h2 : "flag-".length = 5 := rfl
    rw [h1, h2] at hl
    omega

/-- C2 (amended): for every input mapping, key text, style and nonzero depth,
every key of the mapping returned by `flattenInternal` (hence by `Flatten` and
`FlattenNoArray`) begins with the caller-supplied key text; in particular
`Flatten {"a": "b"}` with text `"flag-"` and depth -1 yields `{"flag-a": "b"}`
for every style. -/
theorem c2_prefix_propagation :
    (∀ (n : Entries) (p : String) (style : SeparatorStyle) (d : Int) (b : Bool)
      (m : FlatMap), d ≠ 0 → flattenInternal n p style d b = Except.ok m →
      ∀ k ∈ keys m, hasPfx p k) ∧
    (∀ style : SeparatorStyle,
      Flatten exAB "flag-" style (-1) = Except.ok [("flag-a", Value.vstr "b")]) := by
  constructor
  · intro n p style d b m hd hm k hk
    unfold flattenInternal at hm
    rw [if_neg hd] at hm
    rcases hp : flatten true [] (Value.vmap n) p style
        (if d > 0 then d + 1 else d) b with ⟨fm, err⟩
    rw [hp] at hm
    cases err with
    | none =>
      have hfm : fm = m := by
        simpa using hm
      rcases keys_flatten true [] (Value.vmap n) p style
          (if d > 0 then d + 1 else d) b k (by rw [hp]; exact hfm ▸ hk) with h | h
      · simp [keys] at h
      · exact h
    | some e => simp at hm
  · intro style
    simp [Flatten, flattenInternal, flatten, flattenMapLoop, assign, enkey, setKey, exAB]

/-- C2 (witness). -/
theorem c2_prefix_propagation_witness : hasPfx "flag-" "flag-a" :=
  c2_prefix_propagation.1 exAB "flag-" DotStyle (-1) false
    [("flag-a", Value.vstr "b")] (by decide)
    (by simp [flattenInternal, flatten, flattenMapLoop, assign, enkey, setKey, exAB])
    "flag-a" (by decide)

/-- C3: the public entry point increments any positive caller-supplied depth
by one before the first recursive call, so the observed semantics is the
number of nesting levels collapsed into the key; flattening
`{"a":{"b":{"c":{"d":"e"}}}}` with empty key text, depth 2 and Underscore
style yields exactly `{"a_b_c": {"d":"e"}}`, and with depth 3 and Path style
exactly `{"a/b/c/d": "e"}`. -/
theorem c3_depth_increment_and_truncation :
    (∀ (n : Entries) (p : String) (style : SeparatorStyle) (d : Int) (b : Bool),
      0 < d → flattenInternal n p style d b = runFlatten n p style (d + 1) b) ∧
    Flatten exABCD "" UnderscoreStyle 2 =
      Except.ok [("a_b_c", Value.vmap (Entries.econs "d" (Value.vstr "e") Entries.enil))] ∧
    Flatten exABCD "" PathStyle 3 = Except.ok [("a/b/c/d", Value.vstr "e")] := by
  refine ⟨?_, ?_, ?_⟩
  · intro n p style d b hd
    unfold flattenInternal runFlatten
    rw [if_neg (by omega : ¬ d = 0), if_pos hd]
  · simp [Flatten, flattenInternal, runFlatten, flatten, flattenMapLoop, assign,
      enkey, setKey, exABCD, UnderscoreStyle]
  · simp [Flatten, flattenInternal, runFlatten, flatten, flattenMapLoop, assign,
      enkey, setKey, exABCD, PathStyle]

/-- C3 (witness). -/
theorem c3_depth_increment_witness :
    flattenInternal exABCD "" DotStyle 1 false = runFlatten exABCD "" DotStyle 2 false :=
  c3_depth_increment_and_truncation.1 exABCD "" DotStyle 1 false (by decide)

/-- C4: with depth -1 and arrays decomposed, every value in the flat map
produced by `Flatten` is a scalar, never a mapping and never a sequence. -/
theorem c4_full_flatten_values_scalar (n : Entries) (p : String) (style : SeparatorStyle)
    (m : FlatMap) (hm : Flatten n p style (-1) = Except.ok m) :
    ∀ x ∈ m, isStructural x.2 = false := by
  intro x hx
  unfold Flatten flattenInternal at hm
  rw [if_neg (by decide : ¬ (-1 : Int) = 0)] at hm
  rw [if_neg (by decide : ¬ (-1 : Int) > 0)] at hm
  rcases hp : flatten true [] (Value.vmap n) p style (-1) false with ⟨fm, err⟩
  rw [hp] at hm
  cases err with
  | none =>
    have hfm : fm = m := by
      simpa using hm
    rcases vals_flatten true [] (Value.vmap n) p style (-1) (by decide) x
        (by rw [hp]; exact hfm ▸ hx) with h | h
    · simp at h
    · exact h
  | some e => simp at hm

/-- C4 (witness). -/
theorem c4_full_flatten_values_scalar_witness : isStructural (Value.vstr "one") = false :=
  c4_full_flatten_values_scalar exArr "" DotStyle
    [("z.0", Value.vstr "one"), ("z.1", Value.vstr "two")]
    (by simp [Flatten, flattenInternal, flatten, flattenMapLoop, flattenArrLoop,
      assign, enkey, setKey, exArr]; decide)
    ("z.0", Value.vstr "one") (by decide)

/-- C5: on `{"z": ["one","two"]}` with empty key text, Dot style and depth -1,
the array-preserving variant returns the array verbatim under `"z"`, while the
default variant decomposes it into `{"z.0": "one", "z.1": "two"}` with 0-based
decimal indices. -/
theorem c5_array_preservation_toggle :
    FlattenNoArray exArr "" DotStyle (-1) =
      Except.ok [("z", Value.varr (Items.icons (Value.vstr "one")
        (Items.icons (Value.vstr "two") Items.inil)))] ∧
    Flatten exArr "" DotStyle (-1) =
      Except.ok [("z.0", Value.vstr "one"), ("z.1", Value.vstr "two")] := by
  constructor
  · simp [FlattenNoArray, flattenInternal, flatten, flattenMapLoop, flattenArrLoop,
      assign, enkey, setKey, exArr]
  · simp [Flatten, flattenInternal, flatten, flattenMapLoop, flattenArrLoop,
      assign, enkey, setKey, exArr]
    decide

/-- C6: the key composer is a pure function returning the existing key text
followed by the bare sub-key at the top level, and the Before/Middle/After
decorated sub-key at nested levels; composing the path `["a","b","c"]` from
empty text yields `"a.b.c"` (Dot), `"a[b][c]"` (Rails), `"a/b/c"` (Path) and
`"a_b_c"` (Underscore). -/
theorem c6_key_composition :
    (∀ (p k : String) (style : SeparatorStyle), enkey true p k style = p ++ k) ∧
    (∀ (p k : String) (style : SeparatorStyle),
      enkey false p k style = p ++ style.Before ++ style.Middle ++ k ++ style.After) ∧
    composePath "" ["a", "b", "c"] DotStyle = "a.b.c" ∧
    composePath "" ["a", "b", "c"] RailsStyle = "a[b][c]" ∧
    composePath "" ["a", "b", "c"] PathStyle = "a/b/c" ∧
    composePath "" ["a", "b", "c"] UnderscoreStyle = "a_b_c" := by
  refine ⟨fun p k style => rfl, fun p k style => rfl, ?_, ?_, ?_, ?_⟩
  · decide
  · decide
  · decide
  · decide

/-- C7: when the recursive flattener is invoked on a node that is neither a
mapping nor a sequence with nonzero remaining depth, it fails with
`ErrNotValidInput` immediately: the error goes straight back to the direct
caller and the output mapping is left exactly as it was, with no partial
writes. -/
theorem c7_scalar_node_rejected (top : Bool) (fm : FlatMap) (v : Value) (p : String)
    (style : SeparatorStyle) (d : Int) (keep : Bool)
    (hv : isStructural v = false) (hd : d ≠ 0) :
    flatten top fm v p style d keep = (fm, some GoErr.errNotValidInput) := by
  rw [flatten.eq_def, if_neg hd]
  cases v with
  | vmap e => simp [isStructural] at hv
  | varr a => simp [isStructural] at hv
  | vnull => rfl
  | vbool b => rfl
  | vnum n => rfl
  | vstr s => rfl

/-- C7 (witness). -/
theorem c7_scalar_node_rejected_witness :
    flatten true [] Value.vnull "k" DotStyle (-1) false =
      ([], some GoErr.errNotValidInput) :=
  c7_scalar_node_rejected true [] Value.vnull "k" DotStyle (-1) false rfl (by decide)

/-- C8: the text front end rejects any input that does not begin, after
leading whitespace, with an opening brace: both string variants return the
empty string together with `ErrNotValidJsonInput`, for any decoder and
encoder; empty text, bare scalar literals and a top-level array literal all
fail the lexical check. -/
theorem c8_invalid_text_rejected :
    (∀ (dec : String → Except GoErr Entries) (enc : FlatMap → Except GoErr String)
      (inp p : String) (style : SeparatorStyle) (d : Int), isJsonMap inp = false →
      FlattenString dec enc inp p style d = ("", some GoErr.errNotValidJsonInput) ∧
      FlattenStringNoArray dec enc inp p style d =
        ("", some GoErr.errNotValidJsonInput)) ∧
    isJsonMap "" = false ∧
    isJsonMap "42" = false ∧
    isJsonMap "false" = false ∧
    isJsonMap "\"42\"" = false ∧
    isJsonMap "[ \"one\", \"two\" ]" = false := by
  refine ⟨?_, by decide, by decide, by decide, by decide, by decide⟩
  intro dec enc inp p style d h
  constructor
  · simp [FlattenString, flattenStringInternal, h]
  · simp [FlattenStringNoArray, flattenStringInternal, h]

/-- C8 (witness). -/
theorem c8_invalid_text_rejected_witness :
    FlattenString (fun _ => Except.error (GoErr.jsonErr "bad"))
      (fun _ => Except.ok "") "42" "" DotStyle (-1) =
      ("", some GoErr.errNotValidJsonInput) :=
  (c8_invalid_text_rejected.1 (fun _ => Except.error (GoErr.jsonErr "bad"))
    (fun _ => Except.ok "") "42" "" DotStyle (-1) (by decide)).1

/-- C9: the map-based operations never return an error: the input is typed as
a mapping, so the `ErrNotValidInput` branch is unreachable at the top, and the
loops ignore the error result of the `assign` closure. -/
theorem c9_flatten_never_errors (n : Entries) (p : String) (style : SeparatorStyle)
    (d : Int) :
    (∃ m, Flatten n p style d = Except.ok m) ∧
    (∃ m, FlattenNoArray n p style d = Except.ok m) :=
  ⟨flattenInternal_isOk n p style d false, flattenInternal_isOk n p style d true⟩

/-- C10: descending into an empty mapping, or into an empty sequence when
sequences are decomposed, writes no key at all; in particular
`Flatten {"a": {}}` with empty key text and depth -1 returns the empty flat
map for every style. -/
theorem c10_empty_structures_vanish :
    (∀ (top : Bool) (fm : FlatMap) (p : String) (style : SeparatorStyle) (d : Int)
      (keep : Bool), d ≠ 0 →
      flatten top fm (Value.vmap Entries.enil) p style d keep = (fm, none)) ∧
    (∀ (top : Bool) (fm : FlatMap) (p : String) (style : SeparatorStyle) (d : Int),
      d ≠ 0 →
      flatten top fm (Value.varr Items.inil) p style d false = (fm, none)) ∧
    (∀ style : SeparatorStyle,
      Flatten (Entries.econs "a" (Value.vmap Entries.enil) Entries.enil) "" style (-1) =
        Except.ok []) := by
  refine ⟨?_, ?_, ?_⟩
  · intro top fm p style d keep hd
    rw [flatten.eq_def, if_neg hd]
    dsimp only
    rw [flattenMapLoop]
  · intro top fm p style d hd
    rw [flatten.eq_def, if_neg hd]
    dsimp only
    rw [if_neg (by simp), flattenArrLoop]
  · intro style
    simp [Flatten, flattenInternal, flatten, flattenMapLoop, assign, enkey, setKey]

/-- C10 (witness). -/
theorem c10_empty_structures_vanish_witness :
    flatten true [] (Value.vmap Entries.enil) "p" DotStyle (-1) false = ([], none) :=
  c10_empty_structures_vanish.1 true [] "p" DotStyle (-1) false (by decide)

end GoJsonFlatten
